import Mathlib

/-!
Verification of the audio-synthesis core in src/main.go.

Modelling choices (shallow embedding):
- A Go `time.Duration` is an integer number of nanoseconds, modelled as `ℤ`.
- Amplitudes (`float64`) in the signal pipeline are modelled as real numbers;
  the loop cursor arithmetic of `Sample` (float64 in Go) is modelled with
  exact rational arithmetic, as the drift-free idealisation of the loop.
- For the PCM encoder only the 64-bit pattern of a `float64` matters
  (`math.Float64bits` is a bijection onto `uint64`), so there a frame is
  modelled directly by its bit pattern, a natural number below 2 ^ 64.
-/

namespace AudioSynth

/-- Signal is Go `type Signal func(x time.Duration) (y float64)`:
a pure function from a nanosecond time offset to an amplitude. -/
def Signal : Type := ℤ → ℝ

/-- seconds models Go `time.Duration.Seconds()`: the duration in fractional
seconds, that is, nanoseconds divided by 1e9. -/
noncomputable def seconds (x : ℤ) : ℝ := (x : ℝ) / 1000000000

/-- Constant models Go `Constant(v float64) Signal`: it ignores the time
input and yields `v`. -/
def Constant (v : ℝ) : Signal := fun _ => v

/-- Sine models Go `Sine(freq Signal) Signal`:
`math.Sin(x.Seconds() * 2 * math.Pi * freq(x))`. -/
noncomputable def Sine (freq : Signal) : Signal :=
  fun x => Real.sin (seconds x * 2 * Real.pi * freq x)

/-- truncQ models the Go conversion `time.Duration(i)` of the float64 loop
cursor back to an integer duration: truncation toward zero. -/
def truncQ (q : ℚ) : ℤ := if 0 ≤ q then ⌊q⌋ else ⌈q⌉

/-- sampleAux models the loop of Go `Sample`:
`for i := float64(from); i < float64(from+to); i += step` appending
`s(time.Duration(i))` each iteration.  The float64 cursor accumulation is
modelled with exact rational arithmetic; this is the drift-free idealisation
the spec asks the redesign to adopt, and it coincides with the float64
program exactly (i) whenever the loop body never runs (the guard fails at
entry regardless of the step value), and (ii) whenever the step and every
cursor value and bound are integers below 2 to the 53rd, where every float64
operation of the loop is exact -- in particular when `rate` divides 1e9 and
the window ends at or below 2 to the 52nd nanoseconds.  Frame-count
statements are confined to those regions; for other rates the float64
rounding of the step drifts the count (for example rate 3 over 2 s of
signal yields 7 frames in Go).  The conjunct `0 < step` in the guard is a
termination side condition: it holds whenever `rate ≥ 1` (the region where
the Go loop terminates); for `step ≤ 0` with a nonempty window the Go loop
would not terminate, and the model returns `[]` there instead. -/
def sampleAux (s : Signal) (stop step : ℚ) (i : ℚ) : List ℝ :=
  if h0 : 0 < step ∧ i < stop then
    s (truncQ i) :: sampleAux s stop step (i + step)
  else []
termination_by (⌈(stop - i) / step⌉).toNat
decreasing_by
  have hstep : 0 < step := h0.1
  have hlt : i < stop := h0.2
  have h1 : (stop - (i + step)) / step = (stop - i) / step - 1 := by
    field_simp
    ring
  have h2 : (0 : ℚ) < (stop - i) / step := div_pos (by linarith) hstep
  have h3 : (0 : ℤ) < ⌈(stop - i) / step⌉ := by
    exact_mod_cast Int.lt_ceil.mpr (by exact_mod_cast h2)
  have h4 : ⌈(stop - (i + step)) / step⌉ = ⌈(stop - i) / step⌉ - 1 := by
    rw [h1]
    exact_mod_cast Int.ceil_sub_int ((stop - i) / step) 1
  omega

/-- Sample models Go
`Sample(s Signal, rate int, from, to time.Duration) []float64` with
`step := float64(time.Second) / float64(rate)` (one second is 1e9
nanoseconds).  The step is taken as the exact rational 1e9 / rate; the Go
float64 quotient equals it exactly when rate divides 1e9 (an integer below
2 to the 53rd is returned exactly by correctly rounded division), the
faithfulness region of the frame-count theorem below.  The Go parameters
`from` and `to` are spelled `frm` and `dur` (`from` and `to` are Lean
keywords). -/
def Sample (s : Signal) (rate : ℤ) (frm dur : ℤ) : List ℝ :=
  sampleAux s ((frm : ℚ) + (dur : ℚ)) ((1000000000 : ℚ) / (rate : ℚ)) (frm : ℚ)

/-- putUint64BE models Go `binary.BigEndian.PutUint64` applied to the 8-byte
scratch buffer: the eight bytes of the 64-bit value `v`, most significant
first. -/
def putUint64BE (v : ℕ) : List ℕ :=
  let w := v % 2 ^ 64
  [w / 2 ^ 56 % 256, w / 2 ^ 48 % 256, w / 2 ^ 40 % 256, w / 2 ^ 32 % 256,
   w / 2 ^ 24 % 256, w / 2 ^ 16 % 256, w / 2 ^ 8 % 256, w % 256]

/-- EncodePCM models Go `EncodePCM(frames []float64) (b []byte)`: a fold over
the frames appending the 8 big-endian bytes of each frame bit pattern
(`math.Float64bits(pulse)`, here the frame is already its bit pattern). -/
def EncodePCM (frames : List ℕ) : List ℕ :=
  frames.foldl (fun b pulse => b ++ putUint64BE pulse) []

/-- DecodePCM is the inverse required by the spec: split the buffer into
consecutive 8-byte groups and reassemble each group, big-endian, into a
64-bit pattern.  A trailing group of fewer than 8 bytes is dropped. -/
def DecodePCM : List ℕ → List ℕ
  | b0 :: b1 :: b2 :: b3 :: b4 :: b5 :: b6 :: b7 :: rest =>
      (b0 * 2 ^ 56 + b1 * 2 ^ 48 + b2 * 2 ^ 40 + b3 * 2 ^ 32 +
       b4 * 2 ^ 24 + b5 * 2 ^ 16 + b6 * 2 ^ 8 + b7) :: DecodePCM rest
  | _ => []

/-! Extended float64 value model.  The real-valued Signal model above cannot
express the IEEE non-finite values, which the spec explicitly admits into
signals; the Sine edge-case claim quantifies over them, so the oscillator is
also modelled over an extended domain: a float64 value is finite (an exact
real; rounding and overflow are ignored, which is faithful at the evaluated
points, where every product has a factor 0 or modest magnitude), positive
or negative infinity, or NaN.  The two IEEE zeros are conflated; they are
numerically equal. -/

inductive F64 where
  | fin (x : ℝ)
  | inf
  | neginf
  | nan

/-- mulF models IEEE-754 float64 multiplication on the extended domain: NaN
propagates, infinity times zero is NaN, infinity times a nonzero finite
value is infinity with the product sign, finite times finite is the exact
product. -/
noncomputable def mulF : F64 → F64 → F64
  | F64.nan, _ => F64.nan
  | _, F64.nan => F64.nan
  | F64.inf, F64.inf => F64.inf
  | F64.inf, F64.neginf => F64.neginf
  | F64.neginf, F64.inf => F64.neginf
  | F64.neginf, F64.neginf => F64.inf
  | F64.inf, F64.fin y =>
      if 0 < y then F64.inf else if y < 0 then F64.neginf else F64.nan
  | F64.fin x, F64.inf =>
      if 0 < x then F64.inf else if x < 0 then F64.neginf else F64.nan
  | F64.neginf, F64.fin y =>
      if 0 < y then F64.neginf else if y < 0 then F64.inf else F64.nan
  | F64.fin x, F64.neginf =>
      if 0 < x then F64.neginf else if x < 0 then F64.inf else F64.nan
  | F64.fin x, F64.fin y => F64.fin (x * y)

/-- sinF models Go `math.Sin` on the extended domain: NaN on NaN and on
both infinities, the exact sine on finite values. -/
noncomputable def sinF : F64 → F64
  | F64.fin x => F64.fin (Real.sin x)
  | _ => F64.nan

/-- secondsF models `time.Duration.Seconds()` into the extended domain; an
int64 duration divided by 1e9 is always finite. -/
noncomputable def secondsF (x : ℤ) : F64 := F64.fin ((x : ℝ) / 1000000000)

/-- ConstantF models Go `Constant` over the extended domain: the captured
value, NaN and infinities included, is returned unchanged. -/
def ConstantF (v : F64) : ℤ → F64 := fun _ => v

/-- SineF models Go `Sine` over the extended domain, with the same
left-associated phase expression as the code:
`math.Sin(x.Seconds() * 2 * math.Pi * freq(x))`. -/
noncomputable def SineF (freq : ℤ → F64) : ℤ → F64 :=
  fun x =>
    sinF (mulF (mulF (mulF (secondsF x) (F64.fin 2)) (F64.fin Real.pi)) (freq x))

/-! Helper lemmas. -/

theorem sampleAux_nil (s : Signal) (stop step i : ℚ)
    (h : ¬(0 < step ∧ i < stop)) : sampleAux s stop step i = [] := by
  rw [sampleAux]
  simp [h]

theorem sampleAux_cons (s : Signal) (stop step i : ℚ)
    (hstep : 0 < step) (hlt : i < stop) :
    sampleAux s stop step i = s (truncQ i) :: sampleAux s stop step (i + step) := by
  rw [sampleAux]
  simp [hstep, hlt]

theorem sampleAux_length (s : Signal) (stop step : ℚ) (hstep : 0 < step) :
    ∀ i : ℚ, (sampleAux s stop step i).length = (⌈(stop - i) / step⌉).toNat := by
  have key : ∀ (n : ℕ) (i : ℚ), (⌈(stop - i) / step⌉).toNat = n →
      (sampleAux s stop step i).length = n := by
    intro n
    induction n with
    | zero =>
      intro i hn
      have hc : ⌈(stop - i) / step⌉ ≤ 0 := by omega
      have hq : (stop - i) / step ≤ 0 := by
        by_contra hq
        push_neg at hq
        have : (0 : ℤ) < ⌈(stop - i) / step⌉ := by
          exact_mod_cast Int.lt_ceil.mpr (by exact_mod_cast hq)
        omega
      have hi : ¬ i < stop := by
        intro hlt
        have : (0 : ℚ) < (stop - i) / step := div_pos (by linarith) hstep
        linarith
      rw [sampleAux_nil s stop step i (by tauto)]
      rfl
    | succ n ih =>
      intro i hn
      have hc : ⌈(stop - i) / step⌉ = (n : ℤ) + 1 := by omega
      have hq : (0 : ℚ) < (stop - i) / step := by
        by_contra hq
        push_neg at hq
        have : ⌈(stop - i) / step⌉ ≤ 0 := Int.ceil_le.mpr (by exact_mod_cast hq)
        omega
      have hi : i < stop := by
        have hm := mul_pos hq hstep
        rw [div_mul_cancel₀ _ (ne_of_gt hstep)] at hm
        linarith
      rw [sampleAux_cons s stop step i hstep hi]
      have h1 : (stop - (i + step)) / step = (stop - i) / step - 1 := by
        field_simp
        ring
      have h2 : ⌈(stop - (i + step)) / step⌉ = (n : ℤ) := by
        rw [h1]
        have := Int.ceil_sub_int ((stop - i) / step) 1
        push_cast at this
        omega
      have := ih (i + step) (by rw [h2]; simp)
      simp [this]
  intro i
  exact key _ i rfl

theorem sample_length (s : Signal) (rate frm dur : ℤ) (hrate : 0 < rate) :
    (Sample s rate frm dur).length = (⌈(dur : ℚ) * (rate : ℚ) / 1000000000⌉).toNat := by
  have hstep : (0 : ℚ) < 1000000000 / (rate : ℚ) := by positivity
  rw [Sample, sampleAux_length s _ _ hstep]
  congr 2
  rw [div_div_eq_mul_div]
  congr 1
  ring

theorem sample_dur_zero (s : Signal) (rate frm : ℤ) : Sample s rate frm 0 = [] := by
  rw [Sample]
  exact sampleAux_nil _ _ _ _ (by simp)

theorem encodePCM_foldl (g : ℕ → List ℕ) :
    ∀ (l : List ℕ) (acc : List ℕ),
      l.foldl (fun b pulse => b ++ g pulse) acc = acc ++ (l.map g).flatten := by
  intro l
  induction l with
  | nil => simp
  | cons p ps ih =>
    intro acc
    simp [ih, List.append_assoc]

theorem encodePCM_eq_join (frames : List ℕ) :
    EncodePCM frames = (frames.map putUint64BE).flatten := by
  rw [EncodePCM, encodePCM_foldl]
  simp

theorem encodePCM_cons (f : ℕ) (fs : List ℕ) :
    EncodePCM (f :: fs) = putUint64BE f ++ EncodePCM fs := by
  rw [encodePCM_eq_join, encodePCM_eq_join]
  simp

theorem putUint64BE_length (v : ℕ) : (putUint64BE v).length = 8 := rfl

theorem encodePCM_length (frames : List ℕ) :
    (EncodePCM frames).length = 8 * frames.length := by
  induction frames with
  | nil => rfl
  | cons f fs ih =>
    rw [encodePCM_cons]
    simp [ih, putUint64BE_length]
    omega

theorem putUint64BE_bytes_lt (v : ℕ) : ∀ b ∈ putUint64BE v, b < 256 := by
  intro b hb
  simp [putUint64BE] at hb
  rcases hb with h | h | h | h | h | h | h | h <;> omega

theorem decode_putUint64BE (f : ℕ) (rest : List ℕ) (hf : f < 2 ^ 64) :
    DecodePCM (putUint64BE f ++ rest) = f :: DecodePCM rest := by
  have hmod : f % 2 ^ 64 = f := Nat.mod_eq_of_lt hf
  simp only [putUint64BE, hmod, List.cons_append, List.nil_append, DecodePCM]
  congr 1
  omega

theorem decode_encodePCM (frames : List ℕ) (h : ∀ f ∈ frames, f < 2 ^ 64) :
    DecodePCM (EncodePCM frames) = frames := by
  induction frames with
  | nil => rfl
  | cons f fs ih =>
    rw [encodePCM_cons, decode_putUint64BE f _ (h f (by simp)),
      ih (fun g hg => h g (by simp [hg]))]

/-! Claim theorems. -/

/-- Claim C1, counterexample: the frame count is not `floor(duration * rate)`.
With `rate = 2` and a duration of 1.25 seconds (1250000000 ns) the loop runs
for cursor values 0, 0.5e9 and 1e9 nanoseconds, producing 3 frames, while
`floor(1.25 * 2) = 2`.  All float64 arithmetic involved in this run is exact,
so the exact-arithmetic model agrees with the Go execution here. -/
theorem sample_length_floor_counterexample :
    (Sample (Constant 0) 2 0 1250000000).length ≠
      (⌊(1250000000 : ℚ) / 1000000000 * 2⌋).toNat := by
  rw [sample_length _ _ _ _ (by norm_num)]
  push_cast
  have h1 : (⌈(1250000000 : ℚ) * 2 / 1000000000⌉ : ℤ) = 3 := by
    norm_num [Int.ceil_eq_iff]
  have h2 : (⌊(1250000000 : ℚ) / 1000000000 * 2⌋ : ℤ) = 2 := by
    norm_num [Int.floor_eq_iff]
  omega

/-- Claim C1, amended: the number of frames is the CEILING of
`duration * rate` (duration in seconds of signal time), not the floor; the
two agree exactly when `duration * rate` is an integer.  The ceiling count
is stated on the region where the float64 loop of the program is provably
exact: `rate ≥ 1` dividing 1e9 (so the float64 step is an exact integer of
nanoseconds), non-negative `frm` and duration, and a window ending at or
below 2 to the 52nd nanoseconds (about 52 days), so that every cursor value
the loop forms is an integer below 2 to the 53rd and every float64 operation
is exact.  For other rates the rounded step drifts the count away from the
ceiling as well: in Go, rate 3 over 2 s of signal yields 7 frames where the
ceiling is 6, and the 44100 Hz, 5 s call of main yields 220501 frames where
the ceiling is 220500. -/
theorem sample_length_ceil (s : Signal) (rate frm dur : ℤ)
    (hrate : 1 ≤ rate) (hdvd : rate ∣ 1000000000) (hfrm : 0 ≤ frm)
    (hdur : 0 ≤ dur) (hwin : frm + dur ≤ 2 ^ 52) :
    (Sample s rate frm dur).length =
      (⌈(dur : ℚ) / 1000000000 * (rate : ℚ)⌉).toNat := by
  rw [sample_length s rate frm dur (by omega)]
  congr 2
  ring

/-- Witness for C1 at a concrete input inside the exact region: sampling one
second at 2 frames per second yields 2 frames. -/
theorem sample_length_ceil_witness :
    (Sample (Constant 0) 2 0 1000000000).length = 2 := by
  have h := sample_length_ceil (Constant 0) 2 0 1000000000
    (by norm_num) (by norm_num) (by norm_num) (by norm_num) (by norm_num)
  rw [h]
  push_cast
  have h1 : (⌈(1000000000 : ℚ) / 1000000000 * 2⌉ : ℤ) = 2 := by
    norm_num
  omega

/-- Claim C2: EncodePCM is total on all 64-bit patterns (NaN and infinity
patterns included), returns a buffer of length exactly 8 times the frame
count, and that buffer is the concatenation, in input order, of the 8-byte
big-endian patterns of the frames, with nothing in between. -/
theorem encodePCM_layout (frames : List ℕ) :
    (EncodePCM frames).length = 8 * frames.length ∧
      EncodePCM frames = (frames.map putUint64BE).flatten :=
  ⟨encodePCM_length frames, encodePCM_eq_join frames⟩

/-- Claim C3: DecodePCM (split into consecutive 8-byte big-endian groups and
reassemble) inverts EncodePCM bit-for-bit on every sequence of 64-bit frame
patterns. -/
theorem decodePCM_encodePCM_roundtrip (frames : List ℕ)
    (h : ∀ f ∈ frames, f < 2 ^ 64) :
    DecodePCM (EncodePCM frames) = frames :=
  decode_encodePCM frames h

/-- Witness for C3 on the bit patterns of 0.0, 1.0 and -1.0. -/
theorem decodePCM_encodePCM_roundtrip_witness :
    DecodePCM (EncodePCM [0, 4607182418800017408, 13830554455654793216]) =
      [0, 4607182418800017408, 13830554455654793216] :=
  decodePCM_encodePCM_roundtrip _ (by norm_num)

/-- Claim C4, counterexample: a call with `rate = -1` is not rejected: Sample
has no validation and no error path, and here it returns the empty sequence
normally, exactly what the claim says must not happen. -/
theorem sample_rate_validation_counterexample :
    Sample (Constant 0) (-1) 0 0 = [] :=
  sample_dur_zero (Constant 0) (-1) 0

/-- Claim C4, amended: Sample does not validate `rate`; a call with
`rate ≤ 0` is not rejected at the boundary but returns normally; with
duration 0 it returns the empty sequence (with `rate ≤ 0` and a positive
duration the Go loop does not even terminate, or steps by infinity). -/
theorem sample_no_rate_validation (s : Signal) (rate frm : ℤ)
    (hrate : rate ≤ 0) : Sample s rate frm 0 = [] :=
  sample_dur_zero s rate frm

/-- Witness for C4 at rate -2. -/
theorem sample_no_rate_validation_witness :
    Sample (Constant 1) (-2) 5 0 = [] :=
  sample_no_rate_validation (Constant 1) (-2) 5 (by norm_num)

/-- Claim C5: Sine(freq) evaluated at t is sin(2 pi t_seconds freq(t)), with
t_seconds the offset in fractional seconds. -/
theorem sine_eval (freq : Signal) (t : ℤ) :
    Sine freq t = Real.sin (2 * Real.pi * seconds t * freq t) :=
  congrArg Real.sin (by ring)

/-- Claim C6, counterexample: the claim quantifies over any float64
frequency value, but with frequency positive infinity at time offset 0 the
phase is 0 times infinity, which is NaN, and math.Sin of NaN is NaN, not 0.
The claim as stated is therefore false at Sine (Constant (+Inf)) at t = 0. -/
theorem sine_zero_nonfinite_counterexample :
    SineF (ConstantF F64.inf) 0 = F64.nan ∧ F64.nan ≠ F64.fin 0 := by
  refine ⟨?_, by simp⟩
  show sinF (mulF (mulF (mulF (secondsF 0) (F64.fin 2)) (F64.fin Real.pi))
    (F64.inf)) = F64.nan
  rw [secondsF]
  norm_num [mulF, sinF]

/-- Claim C6, amended: Sine of a frequency signal evaluates to 0 at time
offset 0 whenever the frequency value at 0 is FINITE (in particular for
Sine (Constant f) with finite f); for frequency plus or minus infinity or
NaN at offset 0 the result is NaN, not 0. -/
theorem sine_zero_at_zero_of_finite (freq : ℤ → F64) (v : ℝ)
    (h : freq 0 = F64.fin v) : SineF freq 0 = F64.fin 0 := by
  show sinF (mulF (mulF (mulF (secondsF 0) (F64.fin 2)) (F64.fin Real.pi))
    (freq 0)) = F64.fin 0
  rw [secondsF, h]
  norm_num [mulF, sinF]

/-- Witness for C6: a finite constant frequency of 5 gives output 0 at time
offset 0. -/
theorem sine_zero_at_zero_of_finite_witness :
    SineF (ConstantF (F64.fin 5)) 0 = F64.fin 0 :=
  sine_zero_at_zero_of_finite (ConstantF (F64.fin 5)) 5 rfl

/-- Claim C7: Constant v evaluated at any time offset returns exactly v,
ignoring the time input; no operation is applied to v, so the value comes
back unchanged for every float64, NaN and infinity patterns included. -/
theorem constant_eval (v : ℝ) (t : ℤ) : Constant v t = v := rfl

/-- Claim C8: a duration of zero yields the empty frame sequence for every
signal, every rate (validated or not) and every starting offset; the loop
guard fails immediately and no error occurs. -/
theorem sample_zero_duration (s : Signal) (rate frm : ℤ) :
    Sample s rate frm 0 = [] :=
  sample_dur_zero s rate frm

/-- Claim C9: Sample is deterministic: it is a pure function of its
arguments, so two calls whose signals agree pointwise (in particular two
calls with identical arguments) return identical frame sequences. -/
theorem sample_deterministic (s₁ s₂ : Signal) (rate frm dur : ℤ)
    (h : ∀ t, s₁ t = s₂ t) :
    Sample s₁ rate frm dur = Sample s₂ rate frm dur := by
  rw [funext h]

/-- Witness for C9 with two syntactically distinct but pointwise equal
signals. -/
theorem sample_deterministic_witness :
    Sample (Constant (1 + 1)) 1 0 1 = Sample (Constant 2) 1 0 1 :=
  sample_deterministic _ _ 1 0 1 (fun _ => by norm_num [Constant])

end AudioSynth
